import Mathlib

/-!
Verification of the `bilbo` RSA pick-lock engine (`src/rsa.rs`).

The Rust source works on `num_bigint::BigInt` values that are nonnegative on
every path the theorems below speak about, so the embedding uses `Nat`
throughout.  The big-integer primitives the source calls (`BigInt::sqrt`,
`BigInt::modinv`, `BigInt::to_bytes_be`) are embedded as executable Lean
functions with the semantics documented by `num-bigint`:

* `BigInt::sqrt` is the truncated (floor) principal square root;
* `BigInt::modinv` returns the unique inverse in `[0, m)` when
  `gcd(a, m) = 1` and `None` otherwise;
* `BigInt::to_bytes_be` returns the minimal big-endian byte string,
  one `0` byte for the value zero.
-/

namespace Bilbo

/-! ### Floor square root (embeds `BigInt::sqrt`)

Binary search on the interval `[lo, hi)` keeping the invariant
`lo² ≤ n < hi²`; the fuel argument only forces structural termination. -/

def sqrtAux (n : Nat) : Nat → Nat → Nat → Nat
  | 0, lo, _ => lo
  | fuel + 1, lo, hi =>
    let mid := (lo + hi) / 2
    if mid = lo then lo
    else if mid * mid ≤ n then sqrtAux n fuel mid hi
    else sqrtAux n fuel lo mid

def isqrt (n : Nat) : Nat := sqrtAux n (n + 1) 0 (n + 1)

theorem sqrtAux_correct (n : Nat) : ∀ fuel lo hi, lo * lo ≤ n → n < hi * hi →
    lo < hi → hi - lo ≤ fuel + 1 →
    sqrtAux n fuel lo hi * sqrtAux n fuel lo hi ≤ n ∧
      n < (sqrtAux n fuel lo hi + 1) * (sqrtAux n fuel lo hi + 1) := by
  intro fuel
  induction fuel with
  | zero =>
    intro lo hi hlo hhi hlt hgap
    have : hi = lo + 1 := by omega
    subst this
    simpa [sqrtAux] using ⟨hlo, hhi⟩
  | succ f ih =>
    intro lo hi hlo hhi hlt hgap
    by_cases hmid : (lo + hi) / 2 = lo
    · have : hi = lo + 1 := by omega
      subst this
      simpa [sqrtAux, hmid] using ⟨hlo, hhi⟩
    · have hmlo : lo < (lo + hi) / 2 := by omega
      have hmhi : (lo + hi) / 2 < hi := by omega
      by_cases hsq : (lo + hi) / 2 * ((lo + hi) / 2) ≤ n
      · have := ih ((lo + hi) / 2) hi hsq hhi hmhi (by omega)
        simpa [sqrtAux, hmid, hsq] using this
      · have := ih lo ((lo + hi) / 2) hlo (by omega) hmlo (by omega)
        simpa [sqrtAux, hmid, hsq] using this

theorem isqrt_correct (n : Nat) :
    isqrt n * isqrt n ≤ n ∧ n < (isqrt n + 1) * (isqrt n + 1) := by
  have h := sqrtAux_correct n (n + 1) 0 (n + 1) (by omega)
    (by nlinarith) (by omega) (by omega)
  simpa [isqrt] using h

theorem isqrt_le (n : Nat) : isqrt n * isqrt n ≤ n := (isqrt_correct n).1

theorem lt_succ_isqrt (n : Nat) : n < (isqrt n + 1) * (isqrt n + 1) :=
  (isqrt_correct n).2

/-- Uniqueness of the floor square root: anything with the two bracketing
properties equals `isqrt n`. -/
theorem isqrt_unique (n r : Nat) (h1 : r * r ≤ n) (h2 : n < (r + 1) * (r + 1)) :
    isqrt n = r := by
  have h3 := isqrt_le n
  have h4 := lt_succ_isqrt n
  rcases Nat.lt_trichotomy (isqrt n) r with h | h | h
  · have : isqrt n + 1 ≤ r := h
    have : (isqrt n + 1) * (isqrt n + 1) ≤ r * r :=
      Nat.mul_le_mul this this
    omega
  · exact h
  · have : r + 1 ≤ isqrt n := h
    have : (r + 1) * (r + 1) ≤ isqrt n * isqrt n :=
      Nat.mul_le_mul this this
    omega

/-! ### Bit length and byte length

`bitLen` is the position of the highest set bit plus one (`0` for `0`);
`byteLen` embeds `BigInt::to_bytes_be(..).1.len()`: the minimal number of
big-endian bytes, with a single `0` byte for the value zero.  The fuel of
`bitLenAux` only forces structural termination (`n` halvings always reach
`0` in at most `n` steps). -/

def bitLenAux : Nat → Nat → Nat
  | 0, _ => 0
  | fuel + 1, n => if n = 0 then 0 else bitLenAux fuel (n / 2) + 1

def bitLen (n : Nat) : Nat := bitLenAux n n

def byteLen (n : Nat) : Nat := if n = 0 then 1 else (bitLen n + 7) / 8

theorem bitLenAux_zero : ∀ fuel, bitLenAux fuel 0 = 0 := by
  intro fuel
  cases fuel <;> simp [bitLenAux]

theorem bitLenAux_correct : ∀ fuel n, n ≤ fuel → 0 < n →
    2 ^ (bitLenAux fuel n - 1) ≤ n ∧ n < 2 ^ bitLenAux fuel n := by
  intro fuel
  induction fuel with
  | zero => intro n h1 h2; omega
  | succ f ih =>
    intro n h1 h2
    have hne : ¬ n = 0 := by omega
    by_cases hsmall : n = 1
    · subst hsmall
      simp [bitLenAux, bitLenAux_zero]
    · have h3 : 0 < n / 2 := by omega
      have h4 : n / 2 ≤ f := by omega
      obtain ⟨ha, hb⟩ := ih (n / 2) h4 h3
      have hpos : 0 < bitLenAux f (n / 2) := by
        by_contra h
        have : bitLenAux f (n / 2) = 0 := by omega
        rw [this] at hb
        omega
      have heq : bitLenAux (f + 1) n = bitLenAux f (n / 2) + 1 := by
        simp [bitLenAux, hne]
      have e1 : 2 * 2 ^ (bitLenAux f (n / 2) - 1) = 2 ^ bitLenAux f (n / 2) := by
        conv_rhs => rw [show bitLenAux f (n / 2) = bitLenAux f (n / 2) - 1 + 1 by
          omega]
        rw [pow_succ]
        ring
      have e2 : 2 ^ (bitLenAux f (n / 2) + 1) = 2 * 2 ^ bitLenAux f (n / 2) := by
        rw [pow_succ]
        ring
      rw [heq]
      simp only [Nat.add_sub_cancel]
      omega

theorem bitLen_correct (n : Nat) (h : 0 < n) :
    2 ^ (bitLen n - 1) ≤ n ∧ n < 2 ^ bitLen n :=
  bitLenAux_correct n n (Nat.le_refl n) h

/-! ### Extended Euclid and modular inverse (embeds `BigInt::modinv`)

`num-bigint`'s `modinv` returns `Some d` with `d` the unique inverse in
`[0, m)` exactly when `gcd(a, m) = 1` (with `Some 0` for modulus `1`), and
`None` when no inverse exists.  The fuel of `egcdAux` forces structural
termination; `r1 ≤ fuel` always holds on calls from `egcd`. -/

def egcdAux : Nat → Nat → Nat → Int → Int → Int → Int → Nat × Int × Int
  | 0, r0, _, s0, _, t0, _ => (r0, s0, t0)
  | fuel + 1, r0, r1, s0, s1, t0, t1 =>
    if r1 = 0 then (r0, s0, t0)
    else
      egcdAux fuel r1 (r0 % r1) s1 (s0 - (r0 / r1 : Nat) * s1) t1
        (t0 - (r0 / r1 : Nat) * t1)

def egcd (a b : Nat) : Nat × Int × Int := egcdAux (b + 1) a b 1 0 0 1

theorem egcdAux_correct (a b : Nat) :
    ∀ (fuel r0 r1 : Nat) (s0 s1 t0 t1 : Int), r1 ≤ fuel →
    (a : Int) * s0 + (b : Int) * t0 = (r0 : Int) →
    (a : Int) * s1 + (b : Int) * t1 = (r1 : Int) →
    (egcdAux fuel r0 r1 s0 s1 t0 t1).1 = Nat.gcd r0 r1 ∧
      (a : Int) * (egcdAux fuel r0 r1 s0 s1 t0 t1).2.1 +
        (b : Int) * (egcdAux fuel r0 r1 s0 s1 t0 t1).2.2 =
        ((egcdAux fuel r0 r1 s0 s1 t0 t1).1 : Int) := by
  intro fuel
  induction fuel with
  | zero =>
    intro r0 r1 s0 s1 t0 t1 hle h0 h1
    have : r1 = 0 := by omega
    subst this
    simpa [egcdAux] using h0
  | succ f ih =>
    intro r0 r1 s0 s1 t0 t1 hle h0 h1
    by_cases hz : r1 = 0
    · subst hz
      simpa [egcdAux] using h0
    · have hmodle : r0 % r1 ≤ f := by
        have := Nat.mod_lt r0 (show r1 > 0 by omega)
        omega
      have hmod : (a : Int) * (s0 - (r0 / r1 : Nat) * s1) +
          (b : Int) * (t0 - (r0 / r1 : Nat) * t1) = ((r0 % r1 : Nat) : Int) := by
        have hdm : (r1 : Int) * ((r0 / r1 : Nat) : Int) + ((r0 % r1 : Nat) : Int)
            = (r0 : Int) := by
          exact_mod_cast congrArg (Nat.cast : Nat → Int) (Nat.div_add_mod r0 r1)
        nlinarith [h0, h1]
      have := ih r1 (r0 % r1) s1 (s0 - (r0 / r1 : Nat) * s1) t1
        (t0 - (r0 / r1 : Nat) * t1) hmodle h1 hmod
      have hgcd : Nat.gcd r1 (r0 % r1) = Nat.gcd r0 r1 := by
        conv_rhs => rw [Nat.gcd_comm, Nat.gcd_rec]
        rw [Nat.gcd_comm]
      constructor
      · simp only [egcdAux, hz, if_false]
        rw [this.1, hgcd]
      · simpa [egcdAux, hz] using this.2

theorem egcd_correct (a b : Nat) :
    (egcd a b).1 = Nat.gcd a b ∧
      (a : Int) * (egcd a b).2.1 + (b : Int) * (egcd a b).2.2 =
        ((egcd a b).1 : Int) := by
  have := egcdAux_correct a b (b + 1) a b 1 0 0 1 (by omega) (by ring) (by ring)
  simpa [egcd] using this

def modinv (a m : Nat) : Option Nat :=
  if m = 0 then none
  else if m = 1 then some 0
  else if (egcd a m).1 = 1 then some (((egcd a m).2.1 % (m : Int)).toNat)
  else none

theorem modinv_isSome_iff (a m : Nat) (hm : 0 < m) :
    (modinv a m).isSome ↔ Nat.gcd a m = 1 := by
  rcases Nat.lt_or_ge m 2 with h | h
  · have : m = 1 := by omega
    subst this
    simp [modinv, Nat.gcd_one_right]
  · have h0 : ¬ m = 0 := by omega
    have h1 : ¬ m = 1 := by omega
    rw [(egcd_correct a m).1.symm]
    by_cases hg : (egcd a m).1 = 1 <;> simp [modinv, h0, h1, hg]

theorem modinv_eq_none (a m : Nat) (hm : 0 < m) (hg : Nat.gcd a m ≠ 1) :
    modinv a m = none := by
  have := modinv_isSome_iff a m hm
  cases hval : modinv a m with
  | none => rfl
  | some d =>
    exfalso
    apply hg
    rw [← this, hval]
    rfl

theorem modinv_lt (a m d : Nat) (hm : 2 ≤ m) (h : modinv a m = some d) : d < m := by
  have h0 : ¬ m = 0 := by omega
  have h1 : ¬ m = 1 := by omega
  by_cases hg : (egcd a m).1 = 1
  · simp only [modinv, h0, if_false, h1, hg, if_true, Option.some_inj] at h
    subst h
    have hlt : (egcd a m).2.1 % (m : Int) < (m : Int) :=
      Int.emod_lt_of_pos _ (by exact_mod_cast Nat.lt_of_lt_of_le Nat.zero_lt_two hm)
    omega
  · simp [modinv, h0, h1, hg] at h

theorem modinv_mod (a m d : Nat) (hm : 0 < m) (h : modinv a m = some d) :
    a * d % m = 1 % m := by
  rcases Nat.lt_or_ge m 2 with hsmall | h2
  · have : m = 1 := by omega
    subst this
    omega
  · have h0 : ¬ m = 0 := by omega
    have h1 : ¬ m = 1 := by omega
    by_cases hg : (egcd a m).1 = 1
    · simp only [modinv, h0, if_false, h1, hg, if_true, Option.some_inj] at h
      obtain ⟨hgcd, hbez⟩ := egcd_correct a m
      rw [hg] at hbez
      have hbez' : (a : Int) * (egcd a m).2.1 + (m : Int) * (egcd a m).2.2 = 1 := by
        exact_mod_cast hbez
      have hmz : (m : Int) ≠ 0 := by exact_mod_cast h0
      have hd : (d : Int) = (egcd a m).2.1 % (m : Int) := by
        rw [← h]
        exact Int.toNat_of_nonneg (Int.emod_nonneg _ hmz)
      -- the Bezout coefficient is an inverse of a modulo m
      have hstep1 : Int.ModEq (m : Int) ((egcd a m).2.1 % (m : Int))
          ((egcd a m).2.1) := Int.emod_emod_of_dvd _ (dvd_refl _)
      have hstep2 : Int.ModEq (m : Int) ((a : Int) * (egcd a m).2.1) 1 :=
        Int.modEq_iff_dvd.mpr ⟨(egcd a m).2.2, by linarith⟩
      have hmodeq : Int.ModEq (m : Int) ((a : Int) * (d : Int)) 1 := by
        calc (a : Int) * (d : Int)
            ≡ (a : Int) * (egcd a m).2.1 [ZMOD (m : Int)] := by
              rw [hd]; exact Int.ModEq.mul_left _ hstep1
          _ ≡ 1 [ZMOD (m : Int)] := hstep2
      have hcast : ((a * d % m : Nat) : Int) = ((1 % m : Nat) : Int) := by
        push_cast
        exact hmodeq
      exact_mod_cast hcast
    · simp [modinv, h0, h1, hg] at h

/-! ### Errors

The Rust crate carries a single `BilboError::GenericError(String)`; the
distinct failure kinds of the spec correspond to the distinct message
templates built at each `return Err(...)` site in `src/rsa.rs`.  Each
constructor below stands for one template together with the numeric values
formatted into it. -/

inductive BilboError where
  /-- Site `alter_max_iter`: "Max allowed iter is 99999999999999, got {iter}". -/
  | configError (got : Nat)
  /-- Sites after both search loops: "cannot crack the private exponent of
  the given n {n} and e {e}". -/
  | factorizationFailed (n e : Nat)
  /-- Sites after `modinv` returns `None`: "cannot calculate private
  exponent for phi {phi} and e {e}". -/
  | noInverseExists (phi e : Nat)
  /-- Modelled from the spec: the `SearchExhausted` kind of section 7, used
  only by the spec-side model of the concurrent coordinator. -/
  | searchExhausted (n e : Nat)
  deriving DecidableEq

/-! ### The `PickLock` state and configuration update -/

def MAX_ITERATIONS : Nat := 1000

structure PickLock where
  e : Nat
  n : Nat
  maxIter : Nat
  deriving DecidableEq

def fromExponentAndModulus (e n : Nat) : PickLock :=
  { e := e, n := n, maxIter := MAX_ITERATIONS }

/-- Embeds `PickLock::alter_max_iter`.  The Rust method mutates `&mut self`
and returns `Result<(), BilboError>`; the embedding returns the result
together with the state after the call (including the dead
`if iter == 0 { iter = 0 }` branch of the source). -/
def alterMaxIter (pl : PickLock) (iter : Nat) : Except BilboError Unit × PickLock :=
  if iter > 99999999999999 then (.error (.configError iter), pl)
  else
    let iter := if iter = 0 then 0 else iter
    (.ok (), { pl with maxIter := iter })

/-! ### Close-factor search (embeds `try_lock_pick_weak_private`)

The Rust loop runs `max_iter` times starting from `a = n.sqrt() + 1`,
breaking with `b = sqrt(a² - n)` at the first `a` whose `a² - n` is a
perfect square; `fermatLoop` returns the final `(a, b)` pair (`b = 0` when
the loop exhausts, exactly as the `b` initializer in the source).  All
subtractions below are nonnegative in the source (`a² > n` on every
iterate reached from `a₀ = isqrt n + 1`), so `Nat` subtraction agrees with
`BigInt` subtraction on them. -/

def fermatLoop (n : Nat) : Nat → Nat → Nat × Nat
  | 0, a => (a, 0)
  | m + 1, a =>
    let bRest := a * a - n
    let bRestSqrt := isqrt bRest
    if bRestSqrt * bRestSqrt = bRest then (a, bRestSqrt)
    else fermatLoop n m (a + 1)

def weakLockPick (e n maxIter : Nat) : Except BilboError Nat :=
  let ab := fermatLoop n maxIter (isqrt n + 1)
  let p := ab.1 + ab.2
  let q := ab.1 - ab.2
  if p * q ≠ n then .error (.factorizationFailed n e)
  else
    match modinv e ((p - 1) * (q - 1)) with
    | some r => .ok r
    | none => .error (.noInverseExists ((p - 1) * (q - 1)) e)

def tryLockPickWeakPrivate (pl : PickLock) : Except BilboError Nat :=
  weakLockPick pl.e pl.n pl.maxIter

/-- Perfect-square hit of the Fermat loop at the value `a`. -/
def fermatHit (n a : Nat) : Prop :=
  isqrt (a * a - n) * isqrt (a * a - n) = a * a - n

instance (n a : Nat) : Decidable (fermatHit n a) := by
  unfold fermatHit
  infer_instance

instance exceptDecEq {ε α : Type} [DecidableEq ε] [DecidableEq α] :
    DecidableEq (Except ε α)
  | .ok a, .ok b =>
    if h : a = b then .isTrue (by rw [h]) else .isFalse (by simp [h])
  | .error a, .error b =>
    if h : a = b then .isTrue (by rw [h]) else .isFalse (by simp [h])
  | .ok _, .error _ => .isFalse (by simp)
  | .error _, .ok _ => .isFalse (by simp)

theorem fermatLoop_noHit (n : Nat) : ∀ m a, (∀ i, i < m → ¬ fermatHit n (a + i)) →
    fermatLoop n m a = (a + m, 0) := by
  intro m
  induction m with
  | zero => intro a _; simp [fermatLoop]
  | succ m ih =>
    intro a h
    have h0 : ¬ fermatHit n a := by
      have := h 0 (by omega)
      simpa using this
    have hrest : ∀ i, i < m → ¬ fermatHit n (a + 1 + i) := by
      intro i hi
      have := h (i + 1) (by omega)
      simpa [Nat.add_assoc, Nat.add_comm 1 i] using this
    have := ih (a + 1) hrest
    simp only [fermatLoop]
    rw [if_neg (show ¬ (isqrt (a * a - n) * isqrt (a * a - n) = a * a - n) from h0)]
    rw [this]
    congr 1
    omega

theorem fermatLoop_firstHit (n : Nat) : ∀ m a j, j < m → fermatHit n (a + j) →
    (∀ i, i < j → ¬ fermatHit n (a + i)) →
    fermatLoop n m a = (a + j, isqrt ((a + j) * (a + j) - n)) := by
  intro m
  induction m with
  | zero => intro a j hj; omega
  | succ m ih =>
    intro a j hj hhit hmin
    cases j with
    | zero =>
      simp only [Nat.add_zero] at hhit ⊢
      simp only [fermatLoop]
      rw [if_pos (show isqrt (a * a - n) * isqrt (a * a - n) = a * a - n from hhit)]
    | succ j =>
      have h0 : ¬ fermatHit n a := by
        have := hmin 0 (by omega)
        simpa using this
      have hhit' : fermatHit n (a + 1 + j) := by
        have : a + 1 + j = a + (j + 1) := by omega
        rw [this]
        exact hhit
      have hmin' : ∀ i, i < j → ¬ fermatHit n (a + 1 + i) := by
        intro i hi
        have := hmin (i + 1) (by omega)
        have heq : a + (i + 1) = a + 1 + i := by omega
        rw [heq] at this
        exact this
      have := ih (a + 1) j (by omega) hhit' hmin'
      simp only [fermatLoop]
      rw [if_neg (show ¬ (isqrt (a * a - n) * isqrt (a * a - n) = a * a - n) from h0),
        this]
      have heq : a + 1 + j = a + (j + 1) := by omega
      rw [heq]

/-- Every result of the Fermat loop started above the square root of `n` is
either a genuine perfect-square hit or the exhausted state `(a + m, 0)`. -/
theorem fermatLoop_spec (n : Nat) : ∀ m a, n < a * a →
    n < (fermatLoop n m a).1 * (fermatLoop n m a).1 ∧
      ((fermatLoop n m a).2 * (fermatLoop n m a).2 =
          (fermatLoop n m a).1 * (fermatLoop n m a).1 - n ∧
          (fermatLoop n m a).2 ≠ 0 ∨
        (fermatLoop n m a).2 = 0 ∧ (fermatLoop n m a).1 = a + m) := by
  intro m
  induction m with
  | zero =>
    intro a ha
    exact ⟨ha, Or.inr ⟨rfl, rfl⟩⟩
  | succ m ih =>
    intro a ha
    by_cases hhit : isqrt (a * a - n) * isqrt (a * a - n) = a * a - n
    · have hne : isqrt (a * a - n) ≠ 0 := by
        intro h0
        rw [h0] at hhit
        omega
      simp only [fermatLoop, if_pos hhit]
      exact ⟨ha, Or.inl ⟨hhit, hne⟩⟩
    · have ha' : n < (a + 1) * (a + 1) := by nlinarith
      have := ih (a + 1) ha'
      simp only [fermatLoop, if_neg hhit]
      refine ⟨this.1, ?_⟩
      rcases this.2 with h | h
      · exact Or.inl h
      · exact Or.inr ⟨h.1, by omega⟩

/-! ### Concurrent search: worker bit sizes and the validating coordinator

`try_lock_pick_strong_private` computes `p_size = to_bytes_be(n).len() / 2`
(`u32` division) and each worker with offset `diff ∈ {0, 1, 2}` requests
primes of `((p_size * BITS_IN_BYTE) as i32 - diff) as u32` bits; the cast
round trip is the value modulo `2³²`. -/

def strongWorkerRequestBits (n diff : Nat) : Nat :=
  ((((byteLen n / 2 * 8 : Nat) : Int) - (diff : Int)) % (4294967296 : Int)).toNat

/-- Coordinator state of `validate_received_prime_pairs`: the local
variables `p`, `q`, `next` and the `checked_primes` set (a `HashSet` in the
source, a duplicate-free insertion list here). -/
structure CoordState where
  p : Nat
  q : Nat
  next : Nat
  seen : List Nat
  deriving DecidableEq

def initCoordState : CoordState := { p := 0, q := 0, next := 0, seen := [] }

/-- Embeds the `'checker` loop of `validate_received_prime_pairs` as a
function of the sequence of candidates received on the channel.  `none`
models the loop still blocking on `recv` after the whole sequence was
consumed (the Rust loop never exits on an open, empty channel). -/
def coordLoop (n maxIter : Nat) (oracle : Nat → Bool) :
    List Nat → CoordState → Option CoordState
  | [], _ => none
  | c :: rest, s =>
    if s.next = maxIter then some s
    else
      let s1 : CoordState := { s with next := s.next + 1, p := c }
      if c ∈ s1.seen then coordLoop n maxIter oracle rest s1
      else
        let s2 : CoordState := { s1 with seen := c :: s1.seen, q := n / c }
        if c * (n / c) ≠ n then coordLoop n maxIter oracle rest s2
        else if oracle (n / c) then some s2
        else coordLoop n maxIter oracle rest s2

/-- Embeds `validate_received_prime_pairs` after the `'checker` loop:
the `p · q == n` recheck followed by exponent derivation. -/
def validateReceivedPrimePairs (e n maxIter : Nat) (oracle : Nat → Bool)
    (cands : List Nat) : Option (Except BilboError Nat) :=
  match coordLoop n maxIter oracle cands initCoordState with
  | none => none
  | some s =>
    some (if s.p * s.q ≠ n then .error (.factorizationFailed n e)
      else
        match modinv e ((s.p - 1) * (s.q - 1)) with
        | some r => .ok r
        | none => .error (.noInverseExists ((s.p - 1) * (s.q - 1)) e))

/-! ### Spec-side models

These definitions follow the wording of the specification (not the
source); they exist only to be compared against the embeddings above. -/

/-- Modelled from the spec: "let `a0 = ceil(sqrt(n))`" — the ceiling of the
real square root of `n`. -/
def specCeilSqrt (n : Nat) : Nat :=
  if isqrt n * isqrt n = n then isqrt n else isqrt n + 1

/-- Modelled from the spec: "Compute `target_bits = bit_length(n) / 2`" and
workers request `target_bits - d` bits for offset `d`. -/
def specTargetBits (n d : Nat) : Nat := bitLen n / 2 - d

/-- Modelled from the spec, section 4.3 step 2: the coordinator discards a
candidate already in `SeenSet` without incrementing `SearchBudget`, else
inserts it, increments the budget, stops consuming (failure, `some none`)
when the budget exceeds `max_iterations`, and otherwise checks the factor
pair, accepting it (`some (some (p, q))`) when the oracle confirms `q`.
`none` again models an exhausted candidate sequence without a stop. -/
def specCoordLoop (n maxIter : Nat) (oracle : Nat → Bool) :
    List Nat → List Nat → Nat → Option (Option (Nat × Nat))
  | [], _, _ => none
  | c :: rest, seen, budget =>
    if c ∈ seen then specCoordLoop n maxIter oracle rest seen budget
    else if budget + 1 > maxIter then some none
    else if c * (n / c) ≠ n then
      specCoordLoop n maxIter oracle rest (c :: seen) (budget + 1)
    else if oracle (n / c) then some (some (c, n / c))
    else specCoordLoop n maxIter oracle rest (c :: seen) (budget + 1)

/-- Modelled from the spec, sections 4.3 and 4.4: the concurrent search as
the spec words it — on budget exhaustion fail with `SearchExhausted`, on an
accepted pair derive the exponent. -/
def specValidate (e n maxIter : Nat) (oracle : Nat → Bool)
    (cands : List Nat) : Option (Except BilboError Nat) :=
  match specCoordLoop n maxIter oracle cands [] 0 with
  | none => none
  | some none => some (.error (.searchExhausted n e))
  | some (some pq) =>
    some (match modinv e ((pq.1 - 1) * (pq.2 - 1)) with
      | some r => .ok r
      | none => .error (.noInverseExists ((pq.1 - 1) * (pq.2 - 1)) e))

/-- A concrete instantiation of the black-box primality oracle, used for
closed runs of the coordinator; it answers truthfully on every value the
runs below actually query. -/
def demoOracle (q : Nat) : Bool := q == 5

/-- The distinct-candidate count never exceeds the consumed-candidate count
`next`, and `next` never exceeds `max_iterations`, for every run of the
coordinator loop. -/
theorem coordLoop_budget (n maxIter : Nat) (oracle : Nat → Bool) :
    ∀ (cands : List Nat) (s s' : CoordState),
      s.seen.length ≤ s.next → s.next ≤ maxIter →
      coordLoop n maxIter oracle cands s = some s' →
      s'.seen.length ≤ s'.next ∧ s'.next ≤ maxIter := by
  intro cands
  induction cands with
  | nil => intro s s' _ _ h; simp [coordLoop] at h
  | cons c rest ih =>
    intro s s' hlen hle h
    by_cases hstop : s.next = maxIter
    · simp only [coordLoop, if_pos hstop] at h
      cases h
      exact ⟨hlen, hle⟩
    · simp only [coordLoop, if_neg hstop] at h
      by_cases hseen : c ∈ s.seen
      · rw [if_pos (by simpa using hseen)] at h
        exact ih _ s' (by simpa using Nat.le_succ_of_le hlen) (by simp; omega) h
      · rw [if_neg (by simpa using hseen)] at h
        by_cases hprod : c * (n / c) ≠ n
        · rw [if_pos hprod] at h
          exact ih _ s' (by simp; omega) (by simp; omega) h
        · rw [if_neg hprod] at h
          by_cases hor : oracle (n / c)
          · rw [if_pos hor] at h
            cases h
            constructor
            · simp
              omega
            · simp
              omega
          · rw [if_neg hor] at h
            exact ih _ s' (by simp; omega) (by simp; omega) h

/-! ### Claim theorems -/

/-- C1: for the input n = 63648259, e = 65537 with the default
max_iterations of 1000, the close-factor search `try_lock_pick_weak_private`
succeeds and returns exactly d = 27903761. -/
theorem C1_concrete_scenario :
    tryLockPickWeakPrivate (fromExponentAndModulus 65537 63648259) =
      .ok 27903761 := by
  decide

/-- C8: `alter_max_iter` fails with a ConfigError exactly when the requested
value exceeds the hard ceiling 99999999999999; every requested value at or
below the ceiling, including 0, succeeds and sets `max_iterations` to
exactly the requested value (leaving `e` and `n` unchanged). -/
theorem C8_alter_max_iter (pl : PickLock) (iter : Nat) :
    ((alterMaxIter pl iter).1 = .error (.configError iter) ↔
      99999999999999 < iter) ∧
    (iter ≤ 99999999999999 →
      (alterMaxIter pl iter).1 = .ok () ∧
      (alterMaxIter pl iter).2 = { pl with maxIter := iter }) := by
  by_cases h : 99999999999999 < iter
  · constructor
    · simp [alterMaxIter, h]
    · intro hle
      omega
  · have hle : iter ≤ 99999999999999 := by omega
    by_cases hz : iter = 0
    · subst hz
      simp [alterMaxIter]
    · constructor
      · simp [alterMaxIter, h, hz]
      · intro _
        simp [alterMaxIter, h, hz]

/-- C8 witness: requesting 0 succeeds and sets `max_iterations` to 0. -/
theorem C8_alter_max_iter_witness :
    (alterMaxIter (fromExponentAndModulus 3 35) 0).1 = .ok () ∧
    (alterMaxIter (fromExponentAndModulus 3 35) 0).2 =
      { fromExponentAndModulus 3 35 with maxIter := 0 } :=
  (C8_alter_max_iter (fromExponentAndModulus 3 35) 0).2 (by decide)

/-- C10: when `alter_max_iter` fails because the requested value exceeds the
ceiling, the whole `PickLock` state is unchanged: `max_iterations` keeps its
previous value and `e` and `n` are untouched. -/
theorem C10_alter_max_iter_atomic (pl : PickLock) (iter : Nat)
    (h : 99999999999999 < iter) : (alterMaxIter pl iter).2 = pl := by
  simp [alterMaxIter, h]

/-- C10 witness at the smallest over-ceiling request. -/
theorem C10_alter_max_iter_atomic_witness :
    (alterMaxIter (fromExponentAndModulus 3 35) 100000000000000).2 =
      fromExponentAndModulus 3 35 :=
  C10_alter_max_iter_atomic (fromExponentAndModulus 3 35) 100000000000000
    (by decide)

/-- C9: the close-factor search is deterministic — two runs of
`try_lock_pick_weak_private` on the same `PickLock` (same `e`, `n`,
`max_iterations`) yield the same outcome. -/
theorem C9_deterministic (pl : PickLock) (r1 r2 : Except BilboError Nat)
    (h1 : tryLockPickWeakPrivate pl = r1)
    (h2 : tryLockPickWeakPrivate pl = r2) : r1 = r2 := by
  rw [← h1, ← h2]

/-- C9 witness: two runs on n = 35, e = 3 agree. -/
theorem C9_deterministic_witness :
    (Except.error (BilboError.noInverseExists 24 3) : Except BilboError Nat) =
      .error (.noInverseExists 24 3) :=
  C9_deterministic (fromExponentAndModulus 3 35)
    (.error (.noInverseExists 24 3)) (.error (.noInverseExists 24 3))
    (by decide) (by decide)

/-- C2 counterexample: for the perfect square n = 9 the first value of `a`
tested by the code is `isqrt 9 + 1 = 4`, not `ceil(sqrt 9) = 3`; started at
the spec's 3 the loop would hit immediately with `(3, 0)` (factoring
9 = 3·3), while the code's loop started at 4 stops at `(5, 4)` instead
(giving p = 9, q = 1). -/
theorem C2_counterexample :
    isqrt 9 + 1 = 4 ∧ specCeilSqrt 9 = 3 ∧ (4 : Nat) ≠ 3 ∧
    fermatLoop 9 1000 (specCeilSqrt 9) = (3, 0) ∧
    fermatLoop 9 1000 (isqrt 9 + 1) = (5, 4) := by
  decide

/-- C2 amended: the close-factor search implements Fermat factorization
starting from `a0 = floor(sqrt n) + 1` — which equals `ceil(sqrt n)` for
every non-square n but equals `sqrt n + 1` for perfect-square n.  For
`i` in `0..max_iterations` it computes `b_sq = a² - n`; at the first `a`
for which `b_sq` is a perfect square it stops with `b = sqrt b_sq`
(whence `p = a + b`, `q = a - b`), otherwise it increments `a`, ending at
`(a0 + max_iterations, 0)` when no test succeeds. -/
theorem C2_fermat_loop (n m : Nat) :
    (isqrt n * isqrt n ≠ n → isqrt n + 1 = specCeilSqrt n) ∧
    (∀ j, j < m → fermatHit n (isqrt n + 1 + j) →
      (∀ i, i < j → ¬ fermatHit n (isqrt n + 1 + i)) →
      fermatLoop n m (isqrt n + 1) =
        (isqrt n + 1 + j, isqrt ((isqrt n + 1 + j) * (isqrt n + 1 + j) - n))) ∧
    ((∀ i, i < m → ¬ fermatHit n (isqrt n + 1 + i)) →
      fermatLoop n m (isqrt n + 1) = (isqrt n + 1 + m, 0)) := by
  refine ⟨?_, ?_, ?_⟩
  · intro h
    simp [specCeilSqrt, h]
  · intro j hj hhit hmin
    exact fermatLoop_firstHit n m _ j hj hhit hmin
  · intro h
    exact fermatLoop_noHit n m _ h

/-- C2 witness: n = 21 is not a square and its loop hits at the first test
(21 = 7·3); n = 11 admits no hit within 2 iterations. -/
theorem C2_fermat_loop_witness :
    isqrt 21 + 1 = specCeilSqrt 21 ∧
    fermatLoop 21 5 (isqrt 21 + 1) =
      (isqrt 21 + 1 + 0,
        isqrt ((isqrt 21 + 1 + 0) * (isqrt 21 + 1 + 0) - 21)) ∧
    fermatLoop 11 2 (isqrt 11 + 1) = (isqrt 11 + 1 + 2, 0) :=
  ⟨(C2_fermat_loop 21 5).1 (by decide),
   (C2_fermat_loop 21 5).2.1 0 (by decide) (by decide)
     (fun i hi => absurd hi (Nat.not_lt_zero i)),
   (C2_fermat_loop 11 2).2.2 (by decide)⟩

/-- C4 counterexample: for phi = (2-1)·(2-1) = 1 (the factor pair
p = q = 2) the derivation succeeds — `modinv` returns d = 0 — yet
(e·d) mod phi = 0, not 1, so "when it succeeds the returned d satisfies
(e·d) mod phi = 1" fails as literally stated. -/
theorem C4_counterexample :
    modinv 3 ((2 - 1) * (2 - 1)) = some 0 ∧
    3 * 0 % ((2 - 1) * (2 - 1)) ≠ 1 := by
  decide

/-- C4 amended: for phi = (p-1)(q-1) > 0 the derivation succeeds iff
gcd(e, phi) = 1, and fails with NoInverseExists (returning no value)
whenever gcd(e, phi) ≠ 1; a returned d always satisfies the congruence
(e·d) mod phi = 1 mod phi, which is the literal equation
(e·d) mod phi = 1 whenever phi > 1 (for phi = 1 both sides are 0). -/
theorem C4_exponent_derivation (e phi : Nat) (hphi : 0 < phi) :
    ((modinv e phi).isSome ↔ Nat.gcd e phi = 1) ∧
    (Nat.gcd e phi ≠ 1 → modinv e phi = none) ∧
    (∀ d, modinv e phi = some d →
      e * d % phi = 1 % phi ∧ (1 < phi → e * d % phi = 1)) := by
  refine ⟨modinv_isSome_iff e phi hphi, modinv_eq_none e phi hphi, ?_⟩
  intro d hd
  have h1 := modinv_mod e phi d hphi hd
  exact ⟨h1, fun h2 => by rw [h1, Nat.mod_eq_of_lt h2]⟩

/-- C4 witness at e = 3, phi = 8. -/
theorem C4_exponent_derivation_witness :
    ((modinv 3 8).isSome ↔ Nat.gcd 3 8 = 1) ∧
    (Nat.gcd 3 8 ≠ 1 → modinv 3 8 = none) ∧
    (∀ d, modinv 3 8 = some d →
      3 * d % 8 = 1 % 8 ∧ (1 < 8 → 3 * d % 8 = 1)) :=
  C4_exponent_derivation 3 8 (by decide)

/-- C7 counterexample: for n = 256 (bit length 9, byte length 2) the worker
with offset 0 requests primes of 8 bits, while bit_length(n)/2 - 0 = 4. -/
theorem C7_counterexample :
    strongWorkerRequestBits 256 0 = 8 ∧ specTargetBits 256 0 = 4 ∧
    (8 : Nat) ≠ 4 := by
  decide

/-- C7 amended: each worker with offset d in 0..=2 requests primes of
`8·(byte_length(n)/2) - d` bits, where byte_length(n) is the length of the
minimal big-endian byte string of n (the `i32`/`u32` casts are the
identity for any modulus below 2²⁸ bytes); this agrees with the spec's
`bit_length(n)/2 - d` exactly when bit_length(n) is a multiple of 16, but
not in general. -/
theorem C7_worker_bits (n d : Nat) (hd : d ≤ 2) (hb : 2 ≤ byteLen n)
    (hsmall : byteLen n ≤ 268435456) :
    strongWorkerRequestBits n d = byteLen n / 2 * 8 - d ∧
    (bitLen n % 16 = 0 → 0 < n →
      strongWorkerRequestBits n d = specTargetBits n d) := by
  have hk : 1 ≤ byteLen n / 2 := by omega
  have h8 : 8 ≤ byteLen n / 2 * 8 := by omega
  have hcap : byteLen n / 2 * 8 ≤ 268435456 * 8 := by
    have : byteLen n / 2 ≤ 268435456 := by omega
    omega
  have hmain : strongWorkerRequestBits n d = byteLen n / 2 * 8 - d := by
    unfold strongWorkerRequestBits
    rw [Int.emod_eq_of_lt (by omega) (by omega)]
    omega
  refine ⟨hmain, fun h16 hn => ?_⟩
  rw [hmain]
  unfold specTargetBits
  have hbyte : byteLen n = (bitLen n + 7) / 8 := by
    simp [byteLen, Nat.pos_iff_ne_zero.mp hn]
  rw [hbyte]
  omega

/-- C7 witness: n = 65535 has bit length 16, so the requested size agrees
with the spec formula there. -/
theorem C7_worker_bits_witness :
    strongWorkerRequestBits 65535 1 = byteLen 65535 / 2 * 8 - 1 ∧
    (bitLen 65535 % 16 = 0 → 0 < 65535 →
      strongWorkerRequestBits 65535 1 = specTargetBits 65535 1) :=
  C7_worker_bits 65535 1 (by decide) (by decide) (by decide)

/-- C3: for n > 0 (the data-model invariant on the modulus), the close-factor
search succeeds only with a verified factorization — whenever
`try_lock_pick_weak_private` returns d there are p, q with p·q = n and
(e·d) mod ((p-1)(q-1)) = 1 — and whenever the loop exhausts
`max_iterations` without a perfect-square hit it returns the
FactorizationFailed error and no value. -/
theorem C3_verified_success (e n m : Nat) (hn : 0 < n) :
    (∀ d, weakLockPick e n m = .ok d →
      ∃ p q, p * q = n ∧ e * d % ((p - 1) * (q - 1)) = 1) ∧
    ((∀ i, i < m → ¬ fermatHit n (isqrt n + 1 + i)) →
      weakLockPick e n m = .error (.factorizationFailed n e)) := by
  have ha0 : n < (isqrt n + 1) * (isqrt n + 1) := lt_succ_isqrt n
  constructor
  · intro d hd
    rcases hfl : fermatLoop n m (isqrt n + 1) with ⟨A, B⟩
    have hspec := fermatLoop_spec n m (isqrt n + 1) ha0
    rw [hfl] at hspec
    simp only at hspec
    obtain ⟨hA, hcase⟩ := hspec
    simp only [weakLockPick, hfl] at hd
    rcases hcase with ⟨hB, hBne⟩ | ⟨hB0, _⟩
    · -- perfect-square hit: the factorization is genuine
      have hBle : B ≤ A := by
        by_contra hgt
        have : A * A < B * B := Nat.mul_self_lt_mul_self (by omega)
        omega
      have hpq : (A + B) * (A - B) = n := by
        zify [hBle, Nat.le_of_lt hA] at hB ⊢
        nlinarith [hB]
      rw [if_neg (by simpa using hpq)] at hd
      rcases hminv : modinv e ((A + B - 1) * (A - B - 1)) with _ | r
      · rw [hminv] at hd
        simp at hd
      · rw [hminv] at hd
        have hrd : r = d := by simpa using hd
        rw [hrd] at hminv
        refine ⟨A + B, A - B, hpq, ?_⟩
        have hphi0 : 0 < (A + B - 1) * (A - B - 1) := by
          by_contra hc
          have hz : (A + B - 1) * (A - B - 1) = 0 := by omega
          rw [hz] at hminv
          simp [modinv] at hminv
        have hphi1 : (A + B - 1) * (A - B - 1) ≠ 1 := by
          intro h1
          have hx : A + B - 1 ≤ 1 := Nat.le_of_dvd Nat.one_pos ⟨A - B - 1, h1.symm⟩
          have hy : A - B - 1 ≤ 1 := Nat.le_of_dvd Nat.one_pos
            ⟨A + B - 1, by rw [Nat.mul_comm]; exact h1.symm⟩
          have hxz : A + B - 1 ≠ 0 := by
            intro hz
            rw [hz] at h1
            simp at h1
          have hyz : A - B - 1 ≠ 0 := by
            intro hz
            rw [hz] at h1
            simp at h1
          omega
        have := modinv_mod e ((A + B - 1) * (A - B - 1)) d hphi0 hminv
        rw [Nat.mod_eq_of_lt
          (show 1 < (A + B - 1) * (A - B - 1) by omega)] at this
        exact this
    · -- exhausted loop: the final p · q ≠ n, so no value is returned
      exfalso
      subst hB0
      have hprodne : (A + 0) * (A - 0) ≠ n := by
        simp only [Nat.add_zero, Nat.sub_zero]
        omega
      rw [if_pos hprodne] at hd
      simp at hd
  · intro hnohit
    have hfl := fermatLoop_noHit n m (isqrt n + 1) hnohit
    simp only [weakLockPick, hfl]
    have hne : ¬ (isqrt n + 1 + m + 0) * (isqrt n + 1 + m - 0) = n := by
      have h1 : (isqrt n + 1) * (isqrt n + 1) ≤
          (isqrt n + 1 + m) * (isqrt n + 1 + m) :=
        Nat.mul_le_mul (by omega) (by omega)
      simp only [Nat.add_zero, Nat.sub_zero]
      omega
    rw [if_pos (by simpa using hne)]

/-- C3 witness at e = 3, n = 15, max_iterations = 10. -/
theorem C3_verified_success_witness :
    (∀ d, weakLockPick 3 15 10 = .ok d →
      ∃ p q, p * q = 15 ∧ 3 * d % ((p - 1) * (q - 1)) = 1) ∧
    ((∀ i, i < 10 → ¬ fermatHit 15 (isqrt 15 + 1 + i)) →
      weakLockPick 3 15 10 = .error (.factorizationFailed 15 3)) :=
  C3_verified_success 3 15 10 (by decide)

/-- C5 counterexample: feeding the coordinator (n = 15, max_iterations = 2)
the candidates 7, 7, 3 — the second a duplicate — exhausts the budget after
the duplicate (`next = 2` with only 1 distinct candidate seen) and the run
fails, while the spec's coordinator (duplicates discarded without
incrementing) would go on to accept 3·5 = 15 and succeed with d = 3. -/
theorem C5_counterexample :
    coordLoop 15 2 demoOracle [7, 7, 3] initCoordState =
      some { p := 7, q := 2, next := 2, seen := [7] } ∧
    (2 : Nat) ≠ 1 ∧
    validateReceivedPrimePairs 3 15 2 demoOracle [7, 7, 3] =
      some (.error (.factorizationFailed 15 3)) ∧
    specValidate 3 15 2 demoOracle [7, 7, 3] = some (.ok 3) := by
  decide

/-- C5 amended: the coordinator increments its budget counter `next` for
every candidate it consumes, duplicate or not — a candidate already in
SeenSet is only then discarded (SeenSet and `q` unchanged) — and the
failure stop triggers exactly when the count of all consumed candidates
(not of distinct ones) has reached `max_iterations`; consequently the
distinct-candidate count only ever bounds the budget from below. -/
theorem C5_budget_counts_all (n maxIter : Nat) (oracle : Nat → Bool)
    (c : Nat) (rest : List Nat) (s : CoordState) :
    (s.next ≠ maxIter → c ∈ s.seen →
      coordLoop n maxIter oracle (c :: rest) s =
        coordLoop n maxIter oracle rest { s with p := c, next := s.next + 1 }) ∧
    (s.next = maxIter → coordLoop n maxIter oracle (c :: rest) s = some s) ∧
    (∀ cands (t u : CoordState), t.seen.length ≤ t.next → t.next ≤ maxIter →
      coordLoop n maxIter oracle cands t = some u →
      u.seen.length ≤ u.next ∧ u.next ≤ maxIter) := by
  refine ⟨?_, ?_, fun cands t u h1 h2 h3 =>
    coordLoop_budget n maxIter oracle cands t u h1 h2 h3⟩
  · intro hne hseen
    simp only [coordLoop, if_neg hne]
    rw [if_pos (by simpa using hseen)]
  · intro heq
    simp [coordLoop, heq]

/-- C5 witness: a duplicate consumes budget; the stop fires at
`next = max_iterations`; the run from the empty state keeps the
distinct-count below the budget. -/
theorem C5_budget_counts_all_witness :
    coordLoop 15 5 demoOracle [7, 9] { p := 7, q := 2, next := 1, seen := [7] } =
      coordLoop 15 5 demoOracle [9]
        { p := 7, q := 2, next := 2, seen := [7] } ∧
    coordLoop 15 2 demoOracle [3] { p := 7, q := 2, next := 2, seen := [7] } =
      some { p := 7, q := 2, next := 2, seen := [7] } ∧
    ((1 : Nat) ≤ 2 ∧ (2 : Nat) ≤ 2) :=
  ⟨(C5_budget_counts_all 15 5 demoOracle 7 [9]
      { p := 7, q := 2, next := 1, seen := [7] }).1 (by decide) (by decide),
   (C5_budget_counts_all 15 2 demoOracle 3 []
      { p := 7, q := 2, next := 2, seen := [7] }).2.1 rfl,
   (C5_budget_counts_all 15 2 demoOracle 3 []
      { p := 7, q := 2, next := 2, seen := [7] }).2.2 [7, 7, 3]
      initCoordState { p := 7, q := 2, next := 2, seen := [7] }
      (by decide) (by decide) (by decide)⟩

/-- C6: with max_iterations = 0 both strategies perform no factorization
work and fail at once — the close-factor loop body never runs (the loop
returns its initial state) and `try_lock_pick_weak_private` errors for
every e and n; the coordinator (for a modulus n > 0, per the data-model
invariant) stops on the first received candidate, accepts nothing into
SeenSet, and `validate_received_prime_pairs` errors. -/
theorem C6_zero_budget (e n : Nat) (oracle : Nat → Bool) (c : Nat)
    (rest : List Nat) :
    fermatLoop n 0 (isqrt n + 1) = (isqrt n + 1, 0) ∧
    weakLockPick e n 0 = .error (.factorizationFailed n e) ∧
    (0 < n →
      coordLoop n 0 oracle (c :: rest) initCoordState = some initCoordState ∧
      validateReceivedPrimePairs e n 0 oracle (c :: rest) =
        some (.error (.factorizationFailed n e))) := by
  refine ⟨rfl, ?_, fun hn => ⟨rfl, ?_⟩⟩
  · have ha0 := lt_succ_isqrt n
    have hne : ¬ (isqrt n + 1 + 0) * (isqrt n + 1 - 0) = n := by
      simp only [Nat.add_zero, Nat.sub_zero]
      omega
    simp only [weakLockPick]
    rw [show fermatLoop n 0 (isqrt n + 1) = (isqrt n + 1, 0) from rfl]
    rw [if_pos (by simpa using hne)]
  · simp only [validateReceivedPrimePairs]
    rw [show coordLoop n 0 oracle (c :: rest) initCoordState =
      some initCoordState from rfl]
    simp [initCoordState, Nat.ne_of_lt hn]

/-- C6 witness at e = 3, n = 35 with one pending candidate. -/
theorem C6_zero_budget_witness :
    fermatLoop 35 0 (isqrt 35 + 1) = (isqrt 35 + 1, 0) ∧
    weakLockPick 3 35 0 = .error (.factorizationFailed 35 3) ∧
    coordLoop 35 0 demoOracle [7] initCoordState = some initCoordState ∧
    validateReceivedPrimePairs 3 35 0 demoOracle [7] =
      some (.error (.factorizationFailed 35 3)) :=
  ⟨(C6_zero_budget 3 35 demoOracle 7 []).1,
   (C6_zero_budget 3 35 demoOracle 7 []).2.1,
   ((C6_zero_budget 3 35 demoOracle 7 []).2.2 (by decide)).1,
   ((C6_zero_budget 3 35 demoOracle 7 []).2.2 (by decide)).2⟩

end Bilbo
